import Mathlib

/-!
Verification development for the datapizza-ai-modded agent repository.

The Python modules are shallowly embedded: Python dicts become insertion-ordered
association lists (`dget`/`dset`/`dfind` mirror `d.get(k, 0)`, `d[k] = v` and
`d.get(k)`), floats used for money become rationals, and the stable Python
`list.sort` becomes `List.insertionSort` (a stable sort is determined uniquely
by its key, so this is behaviour-preserving).  Async agents become explicit
state-passing functions; external I/O (market fetches, transaction submission)
becomes input parameters (snapshot lists, success oracles).
-/

namespace PyDict

/-- `d.get(k, default)` on a Python dict modelled as an insertion-ordered
association list: value of the first matching key, or the default. -/
def dgetD {α : Type} (d : List (String × α)) (k : String) (dflt : α) : α :=
  match d with
  | [] => dflt
  | (k₂, v) :: rest => if k₂ = k then v else dgetD rest k dflt

/-- `d.get(k)` on a Python dict: `some` value of the first matching key. -/
def dfind {α : Type} (d : List (String × α)) (k : String) : Option α :=
  match d with
  | [] => none
  | (k₂, v) :: rest => if k₂ = k then some v else dfind rest k

/-- `d[k] = v` on a Python dict: update in place if the key is present
(keeping its position), otherwise append at the end. -/
def dset {α : Type} (d : List (String × α)) (k : String) (v : α) : List (String × α) :=
  match d with
  | [] => [(k, v)]
  | (k₂, v₂) :: rest => if k₂ = k then (k, v) :: rest else (k₂, v₂) :: dset rest k v

theorem dgetD_dset_self {α : Type} (d : List (String × α)) (k : String) (v dflt : α) :
    dgetD (dset d k v) k dflt = v := by
  induction d with
  | nil => simp [dset, dgetD]
  | cons p rest ih =>
    obtain ⟨k₂, v₂⟩ := p
    by_cases h : k₂ = k
    · simp [dset, dgetD, h]
    · simp [dset, dgetD, h, ih]

theorem dgetD_dset_other {α : Type} (d : List (String × α)) (k k₂ : String) (v dflt : α)
    (h : k ≠ k₂) : dgetD (dset d k v) k₂ dflt = dgetD d k₂ dflt := by
  induction d with
  | nil => simp [dset, dgetD, h]
  | cons p rest ih =>
    obtain ⟨k₃, v₃⟩ := p
    by_cases h₃ : k₃ = k
    · subst h₃
      simp [dset, dgetD, h]
    · simp [dset, dgetD, h₃, ih]

end PyDict

open PyDict

/-! ## Market matcher — `src/hackapizza/market_agent.py`

`MarketEntry` embeds the order-book entry dicts consumed by the market agent.
Prices (Python floats) become rationals; quantities are naturals (the data
model requires positive integer lot quantities). -/

structure MarketEntry where
  id : Nat
  side : String
  ingredient_name : String
  quantity : Nat
  price : ℚ
deriving DecidableEq, Repr

/-- Total listed cost of a list of lots: the sum of `price × quantity` over the
lots.  A lot is atomic, so this is what accepting all of them costs. -/
def lotsCost (l : List MarketEntry) : ℚ :=
  (l.map fun e => e.price * (e.quantity : ℚ)).sum

theorem lotsCost_nil : lotsCost [] = 0 := rfl

theorem lotsCost_cons (e : MarketEntry) (l : List MarketEntry) :
    lotsCost (e :: l) = e.price * e.quantity + lotsCost l := by
  simp [lotsCost]

theorem lotsCost_append (l₁ l₂ : List MarketEntry) :
    lotsCost (l₁ ++ l₂) = lotsCost l₁ + lotsCost l₂ := by
  simp [lotsCost]

theorem lotsCost_nonneg (l : List MarketEntry) (h : ∀ e ∈ l, 0 ≤ e.price) :
    0 ≤ lotsCost l := by
  induction l with
  | nil => simp [lotsCost]
  | cons e rest ih =>
    rw [lotsCost_cons]
    have he : 0 ≤ e.price := h e (by simp)
    have : 0 ≤ e.price * e.quantity := mul_nonneg he (by positivity)
    have hr : 0 ≤ lotsCost rest := ih fun x hx => h x (by simp [hx])
    linarith

namespace MarketAgent

/-- `MAX_PRICE_PER_UNIT = 80.0` in `market_agent.py`. -/
def MAX_PRICE_PER_UNIT : ℚ := 80

/-- `BUDGET_FRACTION = 0.7` in `market_agent.py`. -/
def BUDGET_FRACTION : ℚ := 7 / 10

/-- `MAX_BUY_ROUNDS = 5` in `hackapizza/market_agent.py`. -/
def MAX_BUY_ROUNDS : Nat := 5

/-- The grouped-and-sorted sell book for one ingredient:
`sell_by_ing` collects the SELL entries with a non-empty matching ingredient
name in market order, then sorts them ascending by price (Python `list.sort`
is stable, as is `insertionSort`).  `sell_by_ing.get(ing, [])` for an empty
ingredient name is empty since empty names are never inserted. -/
def sellEntriesFor (market : List MarketEntry) (ing : String) : List MarketEntry :=
  if ing = "" then []
  else
    List.insertionSort (fun a b => a.price ≤ b.price)
      (market.filter fun e => e.side = "SELL" ∧ e.ingredient_name = ing)

/-- The inner lot-consumption loop of `find_best_entries`
(`hackapizza/market_agent.py`, lines 148-163): walk the price-sorted sell
entries for one ingredient while some quantity is still needed, skipping
entries over the unit-price cap or over budget, otherwise accepting the whole
entry — the full cost `price * quantity` is charged and the full quantity is
subtracted from the remaining need (comment in source: you pay the entire
entry, no splitting). -/
def buyFromEntries (budget : ℚ) (entries : List MarketEntry) (qtyLeft : Int)
    (spent : ℚ) : List MarketEntry × ℚ :=
  match entries with
  | [] => ([], spent)
  | e :: rest =>
    if qtyLeft ≤ 0 then ([], spent)
    else if MAX_PRICE_PER_UNIT < e.price then buyFromEntries budget rest qtyLeft spent
    else
      let cost : ℚ := e.price * (e.quantity : ℚ)
      if budget < spent + cost then buyFromEntries budget rest qtyLeft spent
      else
        let r := buyFromEntries budget rest (qtyLeft - (e.quantity : Int)) (spent + cost)
        (e :: r.1, r.2)

/-- The outer loop of `find_best_entries` over the `missing` dict, threading
the global running `spent` across ingredients. -/
def findBestGo (market : List MarketEntry) (budget : ℚ) (missing : List (String × Nat))
    (spent : ℚ) : List MarketEntry × ℚ :=
  match missing with
  | [] => ([], spent)
  | (ing, qtyNeeded) :: rest =>
    let r := buyFromEntries budget (sellEntriesFor market ing) (qtyNeeded : Int) spent
    let r₂ := findBestGo market budget rest r.2
    (r.1 ++ r₂.1, r₂.2)

/-- `find_best_entries(missing, market, budget)` from
`hackapizza/market_agent.py` (lines 123-164): returns the ordered list of
accepted lots together with the final committed spend. -/
def find_best_entries (missing : List (String × Nat)) (market : List MarketEntry)
    (budget : ℚ) : List MarketEntry × ℚ :=
  findBestGo market budget missing 0

/-- `compute_missing(target_recipes, inventory, copies_target)` from
`hackapizza/market_agent.py` (lines 104-120): the deficit to make
`copies_target` copies of each target recipe; a shared ingredient takes the
max over recipes. -/
structure Recipe where
  name : String
  prestige : Int
  ingredients : List (String × Nat)
deriving DecidableEq, Repr

def computeMissingGo (copiesTarget : Nat) (inventory : List (String × Nat)) :
    List (String × Nat) → List (String × Nat) → List (String × Nat)
  | missing, [] => missing
  | missing, (ing, qtyPerCopy) :: rest =>
    let totalNeeded := qtyPerCopy * copiesTarget
    let have₀ := dgetD inventory ing 0
    if have₀ < totalNeeded then
      computeMissingGo copiesTarget inventory
        (dset missing ing (max (dgetD missing ing 0) (totalNeeded - have₀))) rest
    else
      computeMissingGo copiesTarget inventory missing rest

def compute_missing (targetRecipes : List Recipe) (inventory : List (String × Nat))
    (copiesTarget : Nat) : List (String × Nat) :=
  targetRecipes.foldl
    (fun missing recipe => computeMissingGo copiesTarget inventory missing recipe.ingredients)
    []

/-- Result of executing one round of the buy loop in `run_market_agent`
(`hackapizza/market_agent.py`, lines 294-322). -/
structure RoundResult where
  bought : List MarketEntry
  toBuy : List (String × Nat)
  virtualInv : List (String × Nat)
  budget : ℚ
deriving Repr

/-- One round of executing the planned `buy_list`: skip entries whose
ingredient is no longer needed (`to_buy.get(ing, 0) <= 0`); for the rest, the
transaction either succeeds (`ok e.id`) — the entry is recorded, the wishlist
decreases by the full entry quantity and is clamped at 0 (natural
subtraction), virtual inventory grows, and the budget is charged the full
`price * quantity` — or fails and is skipped.  The dry-run branch differs only
in not touching `virtual_inv`, which is no longer read afterwards. -/
def processBuyList (ok : Nat → Bool) (buyList : List MarketEntry)
    (toBuy : List (String × Nat)) (virtualInv : List (String × Nat))
    (budget : ℚ) : RoundResult :=
  match buyList with
  | [] => ⟨[], toBuy, virtualInv, budget⟩
  | e :: rest =>
    if dgetD toBuy e.ingredient_name 0 ≤ 0 then
      processBuyList ok rest toBuy virtualInv budget
    else if ok e.id then
      let toBuy₂ := dset toBuy e.ingredient_name (dgetD toBuy e.ingredient_name 0 - e.quantity)
      let vinv₂ := dset virtualInv e.ingredient_name
        (dgetD virtualInv e.ingredient_name 0 + e.quantity)
      let budget₂ := budget - e.price * (e.quantity : ℚ)
      let r := processBuyList ok rest toBuy₂ vinv₂ budget₂
      ⟨e :: r.bought, r.toBuy, r.virtualInv, r.budget⟩
    else
      processBuyList ok rest toBuy virtualInv budget

/-- Result of the whole buy loop: all purchased entries in order, the number
of rounds that fetched the market, and the final wishlist and budget. -/
structure RunResult where
  purchased : List MarketEntry
  rounds : Nat
  toBuy : List (String × Nat)
  budget : ℚ
deriving Repr

/-- The multi-round buy loop of `run_market_agent`
(`hackapizza/market_agent.py`, lines 283-329):
`for round_num in range(1, MAX_BUY_ROUNDS + 1)`, breaking when the wishlist
dict is empty, when `find_best_entries` plans nothing, when a round buys
nothing, or when the budget drops to ≤ 1 after a round.  The external
market fetched each round is modelled by the snapshot list `snaps`
(one snapshot per fetch; the loop also stops if no further snapshot exists),
and transaction success by the oracle `ok` (round, entry id). -/
def run_buy_rounds (ok : Nat → Nat → Bool) (roundNum : Nat)
    (snaps : List (List MarketEntry)) (toBuy : List (String × Nat))
    (virtualInv : List (String × Nat)) (budget : ℚ) : RunResult :=
  match snaps with
  | [] => ⟨[], 0, toBuy, budget⟩
  | market :: rest =>
    if MAX_BUY_ROUNDS < roundNum then ⟨[], 0, toBuy, budget⟩
    else if toBuy = [] then ⟨[], 0, toBuy, budget⟩
    else
      let buyList := (find_best_entries toBuy market budget).1
      if buyList = [] then ⟨[], 1, toBuy, budget⟩
      else
        let r := processBuyList (ok roundNum) buyList toBuy virtualInv budget
        if r.bought = [] then ⟨r.bought, 1, r.toBuy, r.budget⟩
        else if r.budget ≤ 1 then ⟨r.bought, 1, r.toBuy, r.budget⟩
        else
          let rec₂ := run_buy_rounds ok (roundNum + 1) rest r.toBuy r.virtualInv r.budget
          ⟨r.bought ++ rec₂.purchased, 1 + rec₂.rounds, rec₂.toBuy, rec₂.budget⟩

end MarketAgent

/-! ## Legacy market matcher — `src/market_agent.py`

The pre-refactor matcher: same greedy walk over price-sorted SELL lots, but
the cost charged against the budget is `price * min(entry_qty, qty_left)`
(line 96) even though the whole entry is appended to the plan and the whole
entry quantity is subtracted from the remaining need (lines 100-102). -/

namespace MarketAgentLegacy

/-- `find_best_entries(missing, market, balance)` from `src/market_agent.py`
(lines 63-109).  `budget = balance * BUDGET_FRACTION` is computed inside. -/
def buyFromEntriesLegacy (budget : ℚ) (entries : List MarketEntry) (qtyLeft : Int)
    (spent : ℚ) : List MarketEntry × ℚ :=
  match entries with
  | [] => ([], spent)
  | e :: rest =>
    if qtyLeft ≤ 0 then ([], spent)
    else if MarketAgent.MAX_PRICE_PER_UNIT < e.price then
      buyFromEntriesLegacy budget rest qtyLeft spent
    else
      let cost : ℚ := e.price * ((min (e.quantity : Int) qtyLeft : Int) : ℚ)
      if budget < spent + cost then buyFromEntriesLegacy budget rest qtyLeft spent
      else
        let r := buyFromEntriesLegacy budget rest (qtyLeft - (e.quantity : Int)) (spent + cost)
        (e :: r.1, r.2)

def findBestGoLegacy (market : List MarketEntry) (budget : ℚ)
    (missing : List (String × Nat)) (spent : ℚ) : List MarketEntry × ℚ :=
  match missing with
  | [] => ([], spent)
  | (ing, qtyNeeded) :: rest =>
    let r := buyFromEntriesLegacy budget (MarketAgent.sellEntriesFor market ing)
      (qtyNeeded : Int) spent
    let r₂ := findBestGoLegacy market budget rest r.2
    (r.1 ++ r₂.1, r₂.2)

def find_best_entries (missing : List (String × Nat)) (market : List MarketEntry)
    (balance : ℚ) : List MarketEntry × ℚ :=
  findBestGoLegacy market (balance * MarketAgent.BUDGET_FRACTION) missing 0

end MarketAgentLegacy

namespace MarketAgent

theorem buyFromEntries_spent_eq (es : List MarketEntry) :
    ∀ (budget : ℚ) (q : Int) (s : ℚ),
    (buyFromEntries budget es q s).2 = s + lotsCost (buyFromEntries budget es q s).1 := by
  induction es with
  | nil => intro budget q s; simp [buyFromEntries, lotsCost]
  | cons e rest ih =>
    intro budget q s
    by_cases h₁ : q ≤ 0
    · simp [buyFromEntries, h₁, lotsCost]
    · by_cases h₂ : MAX_PRICE_PER_UNIT < e.price
      · simp [buyFromEntries, h₁, h₂, ih]
      · by_cases h₃ : budget < s + e.price * (e.quantity : ℚ)
        · simp [buyFromEntries, h₁, h₂, h₃, ih]
        · simp only [buyFromEntries, h₁, h₂, h₃, if_false, if_true, lotsCost_cons]
          rw [ih]
          ring

theorem buyFromEntries_spent_le (es : List MarketEntry) :
    ∀ (budget : ℚ) (q : Int) (s : ℚ), s ≤ budget →
    (buyFromEntries budget es q s).2 ≤ budget := by
  induction es with
  | nil => intro budget q s h; simpa [buyFromEntries] using h
  | cons e rest ih =>
    intro budget q s h
    by_cases h₁ : q ≤ 0
    · simpa [buyFromEntries, h₁] using h
    · by_cases h₂ : MAX_PRICE_PER_UNIT < e.price
      · simpa [buyFromEntries, h₁, h₂] using ih budget q s h
      · by_cases h₃ : budget < s + e.price * (e.quantity : ℚ)
        · simpa [buyFromEntries, h₁, h₂, h₃] using ih budget q s h
        · simpa [buyFromEntries, h₁, h₂, h₃] using
            ih budget (q - (e.quantity : Int)) (s + e.price * (e.quantity : ℚ)) (not_lt.mp h₃)

theorem buyFromEntries_subset (es : List MarketEntry) :
    ∀ (budget : ℚ) (q : Int) (s : ℚ) (e₂ : MarketEntry),
    e₂ ∈ (buyFromEntries budget es q s).1 → e₂ ∈ es := by
  induction es with
  | nil => intro budget q s e₂ h; simp [buyFromEntries] at h
  | cons e rest ih =>
    intro budget q s e₂ h
    by_cases h₁ : q ≤ 0
    · simp [buyFromEntries, h₁] at h
    · by_cases h₂ : MAX_PRICE_PER_UNIT < e.price
      · simp [buyFromEntries, h₁, h₂] at h
        exact List.mem_cons_of_mem e (ih _ _ _ _ h)
      · by_cases h₃ : budget < s + e.price * (e.quantity : ℚ)
        · simp [buyFromEntries, h₁, h₂, h₃] at h
          exact List.mem_cons_of_mem e (ih _ _ _ _ h)
        · simp [buyFromEntries, h₁, h₂, h₃] at h
          rcases h with h | h
          · simp [h]
          · exact List.mem_cons_of_mem e (ih _ _ _ _ h)

theorem sellEntriesFor_subset (market : List MarketEntry) (ing : String)
    (e : MarketEntry) (h : e ∈ sellEntriesFor market ing) : e ∈ market := by
  unfold sellEntriesFor at h
  by_cases hi : ing = ""
  · simp [hi] at h
  · rw [if_neg hi] at h
    have := (List.perm_insertionSort (fun a b => a.price ≤ b.price)
      (market.filter fun e => e.side = "SELL" ∧ e.ingredient_name = ing)).mem_iff.mp h
    exact (List.mem_filter.mp this).1

theorem findBestGo_spent_eq (missing : List (String × Nat)) :
    ∀ (market : List MarketEntry) (budget s : ℚ),
    (findBestGo market budget missing s).2 = s + lotsCost (findBestGo market budget missing s).1 := by
  induction missing with
  | nil => intro market budget s; simp [findBestGo, lotsCost]
  | cons p rest ih =>
    intro market budget s
    obtain ⟨ing, qty⟩ := p
    simp only [findBestGo, lotsCost_append]
    rw [ih, buyFromEntries_spent_eq]
    ring

theorem findBestGo_spent_le (missing : List (String × Nat)) :
    ∀ (market : List MarketEntry) (budget s : ℚ), s ≤ budget →
    (findBestGo market budget missing s).2 ≤ budget := by
  induction missing with
  | nil => intro market budget s h; simpa [findBestGo] using h
  | cons p rest ih =>
    intro market budget s h
    obtain ⟨ing, qty⟩ := p
    simp only [findBestGo]
    exact ih market budget _ (buyFromEntries_spent_le _ _ _ _ h)

theorem findBestGo_subset (missing : List (String × Nat)) :
    ∀ (market : List MarketEntry) (budget s : ℚ) (e : MarketEntry),
    e ∈ (findBestGo market budget missing s).1 → e ∈ market := by
  induction missing with
  | nil => intro market budget s e h; simp [findBestGo] at h
  | cons p rest ih =>
    intro market budget s e h
    obtain ⟨ing, qty⟩ := p
    simp only [findBestGo, List.mem_append] at h
    rcases h with h | h
    · exact sellEntriesFor_subset market ing e (buyFromEntries_subset _ _ _ _ _ h)
    · exact ih _ _ _ _ h

/-- Planned spend of `find_best_entries` equals the total listed cost of the
selected lots. -/
theorem find_best_entries_spent_eq (missing : List (String × Nat))
    (market : List MarketEntry) (budget : ℚ) :
    (find_best_entries missing market budget).2
      = lotsCost (find_best_entries missing market budget).1 := by
  unfold find_best_entries
  rw [findBestGo_spent_eq]
  ring

/-- With a non-negative budget, the planned spend never exceeds the budget. -/
theorem find_best_entries_spent_le (missing : List (String × Nat))
    (market : List MarketEntry) (budget : ℚ) (h : 0 ≤ budget) :
    (find_best_entries missing market budget).2 ≤ budget :=
  findBestGo_spent_le missing market budget 0 h

theorem find_best_entries_subset (missing : List (String × Nat))
    (market : List MarketEntry) (budget : ℚ) (e : MarketEntry)
    (h : e ∈ (find_best_entries missing market budget).1) : e ∈ market :=
  findBestGo_subset missing market budget 0 e h

theorem lotsCost_sublist_le (l₁ l₂ : List MarketEntry) (h : l₁.Sublist l₂)
    (hn : ∀ e ∈ l₂, 0 ≤ e.price) : lotsCost l₁ ≤ lotsCost l₂ := by
  apply List.Sublist.sum_le_sum (List.Sublist.map _ h)
  intro a ha
  obtain ⟨e, he, rfl⟩ := List.mem_map.mp ha
  exact mul_nonneg (hn e he) (by positivity)

theorem processBuyList_budget_eq (buyList : List MarketEntry) :
    ∀ (ok : Nat → Bool) (toBuy virtualInv : List (String × Nat)) (budget : ℚ),
    (processBuyList ok buyList toBuy virtualInv budget).budget
      = budget - lotsCost (processBuyList ok buyList toBuy virtualInv budget).bought := by
  induction buyList with
  | nil => intro ok toBuy virtualInv budget; simp [processBuyList, lotsCost]
  | cons e rest ih =>
    intro ok toBuy virtualInv budget
    by_cases h₁ : dgetD toBuy e.ingredient_name 0 ≤ 0
    · simp only [processBuyList, if_pos h₁]; exact ih ..
    · by_cases h₂ : ok e.id
      · simp only [processBuyList, if_neg h₁, if_pos h₂, lotsCost_cons]
        rw [ih]
        ring
      · simp only [processBuyList, if_neg h₁, if_neg h₂]; exact ih ..

theorem processBuyList_sublist (buyList : List MarketEntry) :
    ∀ (ok : Nat → Bool) (toBuy virtualInv : List (String × Nat)) (budget : ℚ),
    (processBuyList ok buyList toBuy virtualInv budget).bought.Sublist buyList := by
  induction buyList with
  | nil => intro ok toBuy virtualInv budget; simp [processBuyList]
  | cons e rest ih =>
    intro ok toBuy virtualInv budget
    by_cases h₁ : dgetD toBuy e.ingredient_name 0 ≤ 0
    · simp only [processBuyList, if_pos h₁]
      exact List.Sublist.cons e (ih ..)
    · by_cases h₂ : ok e.id
      · simp only [processBuyList, if_neg h₁, if_pos h₂]
        exact List.Sublist.cons₂ e (ih ..)
      · simp only [processBuyList, if_neg h₁, if_neg h₂]
        exact List.Sublist.cons e (ih ..)

/-- Executing a planned round with a non-negative budget and a well-formed
(non-negatively priced) buy list leaves a non-negative budget, charged exactly
the listed cost of what was bought. -/
theorem processBuyList_budget_nonneg (buyList : List MarketEntry)
    (ok : Nat → Bool) (toBuy virtualInv : List (String × Nat)) (budget : ℚ)
    (hcost : lotsCost buyList ≤ budget)
    (hn : ∀ e ∈ buyList, 0 ≤ e.price) :
    0 ≤ (processBuyList ok buyList toBuy virtualInv budget).budget := by
  rw [processBuyList_budget_eq]
  have := lotsCost_sublist_le _ _ (processBuyList_sublist buyList ok toBuy virtualInv budget) hn
  linarith

/-- Main invariant of the buy loop: starting from a non-negative budget and
non-negatively priced market snapshots, the budget stays non-negative, the
total listed cost of everything purchased is exactly the budget consumed, and
purchased lots have non-negative prices. -/
theorem run_buy_rounds_spend_invariant (snaps : List (List MarketEntry)) :
    ∀ (ok : Nat → Nat → Bool) (roundNum : Nat) (toBuy virtualInv : List (String × Nat))
    (budget : ℚ), 0 ≤ budget → (∀ m ∈ snaps, ∀ e ∈ m, 0 ≤ e.price) →
    0 ≤ (run_buy_rounds ok roundNum snaps toBuy virtualInv budget).budget
    ∧ lotsCost (run_buy_rounds ok roundNum snaps toBuy virtualInv budget).purchased
        = budget - (run_buy_rounds ok roundNum snaps toBuy virtualInv budget).budget
    ∧ ∀ e ∈ (run_buy_rounds ok roundNum snaps toBuy virtualInv budget).purchased,
        0 ≤ e.price := by
  induction snaps with
  | nil =>
    intro ok rn tb vi budget hb _
    exact ⟨hb, by simp [run_buy_rounds, lotsCost], by simp [run_buy_rounds]⟩
  | cons market rest ih =>
    intro ok rn tb vi budget hb hm
    have hmarket : ∀ e ∈ market, 0 ≤ e.price := hm market (by simp)
    have hrest : ∀ m ∈ rest, ∀ e ∈ m, 0 ≤ e.price := fun m hm₂ => hm m (by simp [hm₂])
    by_cases h₁ : MAX_BUY_ROUNDS < rn
    · simp only [run_buy_rounds, if_pos h₁]
      exact ⟨hb, by simp [lotsCost], by simp⟩
    · by_cases h₂ : tb = ([] : List (String × Nat))
      · simp only [run_buy_rounds, if_neg h₁, if_pos h₂]
        exact ⟨hb, by simp [lotsCost], by simp⟩
      · by_cases h₃ : (find_best_entries tb market budget).1 = []
        · simp only [run_buy_rounds, if_neg h₁, if_neg h₂, if_pos h₃]
          exact ⟨hb, by simp [lotsCost], by simp⟩
        · have hbl : ∀ e ∈ (find_best_entries tb market budget).1, 0 ≤ e.price :=
            fun e he => hmarket e (find_best_entries_subset tb market budget e he)
          have hcost : lotsCost (find_best_entries tb market budget).1 ≤ budget := by
            rw [← find_best_entries_spent_eq]
            exact find_best_entries_spent_le tb market budget hb
          have hpb := processBuyList_budget_eq (find_best_entries tb market budget).1
            (ok rn) tb vi budget
          have hpbn := processBuyList_budget_nonneg (find_best_entries tb market budget).1
            (ok rn) tb vi budget hcost hbl
          have hsub := processBuyList_sublist (find_best_entries tb market budget).1
            (ok rn) tb vi budget
          have hbought : ∀ e ∈ (processBuyList (ok rn) (find_best_entries tb market budget).1
              tb vi budget).bought, 0 ≤ e.price :=
            fun e he => hbl e (hsub.subset he)
          by_cases h₄ : (processBuyList (ok rn) (find_best_entries tb market budget).1
              tb vi budget).bought = []
          · simp only [run_buy_rounds, if_neg h₁, if_neg h₂, if_neg h₃, if_pos h₄]
            refine ⟨hpbn, ?_, by simp [h₄]⟩
            rw [hpb, h₄]
            simp [lotsCost]
          · by_cases h₅ : (processBuyList (ok rn) (find_best_entries tb market budget).1
                tb vi budget).budget ≤ 1
            · simp only [run_buy_rounds, if_neg h₁, if_neg h₂, if_neg h₃, if_neg h₄, if_pos h₅]
              exact ⟨hpbn, by rw [hpb]; ring, hbought⟩
            · simp only [run_buy_rounds, if_neg h₁, if_neg h₂, if_neg h₃, if_neg h₄, if_neg h₅]
              obtain ⟨ih₁, ih₂, ih₃⟩ := ih ok (rn + 1)
                (processBuyList (ok rn) (find_best_entries tb market budget).1 tb vi budget).toBuy
                (processBuyList (ok rn) (find_best_entries tb market budget).1 tb vi budget).virtualInv
                (processBuyList (ok rn) (find_best_entries tb market budget).1 tb vi budget).budget
                hpbn hrest
              refine ⟨ih₁, ?_, ?_⟩
              · rw [lotsCost_append, ih₂, hpb]
                ring
              · intro e he
                rcases List.mem_append.mp he with he | he
                · exact hbought e he
                · exact ih₃ e he

/-- The buy loop runs at most `MAX_BUY_ROUNDS + 1 - roundNum` further rounds. -/
theorem run_buy_rounds_rounds_le (snaps : List (List MarketEntry)) :
    ∀ (ok : Nat → Nat → Bool) (roundNum : Nat) (toBuy virtualInv : List (String × Nat))
    (budget : ℚ),
    (run_buy_rounds ok roundNum snaps toBuy virtualInv budget).rounds
      ≤ MAX_BUY_ROUNDS + 1 - roundNum := by
  induction snaps with
  | nil => intro ok rn tb vi budget; simp [run_buy_rounds]
  | cons market rest ih =>
    intro ok rn tb vi budget
    by_cases h₁ : MAX_BUY_ROUNDS < rn
    · simp [run_buy_rounds, if_pos h₁]
    · have hrn : rn ≤ MAX_BUY_ROUNDS := not_lt.mp h₁
      by_cases h₂ : tb = ([] : List (String × Nat))
      · simp [run_buy_rounds, if_neg h₁, if_pos h₂]
      · by_cases h₃ : (find_best_entries tb market budget).1 = []
        · simp only [run_buy_rounds, if_neg h₁, if_neg h₂, if_pos h₃]
          omega
        · by_cases h₄ : (processBuyList (ok rn) (find_best_entries tb market budget).1
              tb vi budget).bought = []
          · simp only [run_buy_rounds, if_neg h₁, if_neg h₂, if_neg h₃, if_pos h₄]
            omega
          · by_cases h₅ : (processBuyList (ok rn) (find_best_entries tb market budget).1
                tb vi budget).budget ≤ 1
            · simp only [run_buy_rounds, if_neg h₁, if_neg h₂, if_neg h₃, if_neg h₄, if_pos h₅]
              omega
            · simp only [run_buy_rounds, if_neg h₁, if_neg h₂, if_neg h₃, if_neg h₄, if_neg h₅]
              have := ih ok (rn + 1)
                (processBuyList (ok rn) (find_best_entries tb market budget).1 tb vi budget).toBuy
                (processBuyList (ok rn) (find_best_entries tb market budget).1 tb vi budget).virtualInv
                (processBuyList (ok rn) (find_best_entries tb market budget).1 tb vi budget).budget
              omega

theorem lotsCost_take_le (l : List MarketEntry) (hn : ∀ e ∈ l, 0 ≤ e.price) (n : Nat) :
    lotsCost (l.take n) ≤ lotsCost l := by
  conv_rhs => rw [← List.take_append_drop n l]
  rw [lotsCost_append]
  have : 0 ≤ lotsCost (l.drop n) :=
    lotsCost_nonneg _ (fun e he => hn e (List.drop_subset n l he))
  linarith

theorem lotsCost_take_mono (l : List MarketEntry) (hn : ∀ e ∈ l, 0 ≤ e.price) (n : Nat) :
    lotsCost (l.take n) ≤ lotsCost (l.take (n + 1)) := by
  have h₂ : ∀ e ∈ l.take (n + 1), 0 ≤ e.price := fun e he => hn e (List.take_subset _ _ he)
  have h₃ := lotsCost_take_le (l.take (n + 1)) h₂ n
  rwa [List.take_take, min_eq_left (Nat.le_succ n)] at h₃

end MarketAgent


open MarketAgent in
/-- C3: for every deficit map, order-book snapshot sequence, and starting
balance, the cumulative committed spend of the buy-side matcher across
matching rounds is non-decreasing and never exceeds
`balance × BUDGET_FRACTION` (0.7 of the balance, not the full balance). -/
theorem budget_cap_and_monotonicity (ok : Nat → Nat → Bool)
    (snaps : List (List MarketEntry)) (toBuy virtualInv : List (String × Nat))
    (balance : ℚ) (hbal : 0 ≤ balance)
    (hm : ∀ m ∈ snaps, ∀ e ∈ m, 0 ≤ e.price) (n : Nat) :
    lotsCost ((run_buy_rounds ok 1 snaps toBuy virtualInv
        (balance * BUDGET_FRACTION)).purchased.take n)
      ≤ lotsCost ((run_buy_rounds ok 1 snaps toBuy virtualInv
        (balance * BUDGET_FRACTION)).purchased.take (n + 1))
    ∧ lotsCost ((run_buy_rounds ok 1 snaps toBuy virtualInv
        (balance * BUDGET_FRACTION)).purchased.take n)
      ≤ balance * BUDGET_FRACTION := by
  have hb : 0 ≤ balance * BUDGET_FRACTION :=
    mul_nonneg hbal (by norm_num [BUDGET_FRACTION])
  obtain ⟨h₁, h₂, h₃⟩ := run_buy_rounds_spend_invariant snaps ok 1 toBuy virtualInv
    (balance * BUDGET_FRACTION) hb hm
  refine ⟨lotsCost_take_mono _ h₃ n, ?_⟩
  have h₄ := lotsCost_take_le _ h₃ n
  calc lotsCost ((run_buy_rounds ok 1 snaps toBuy virtualInv
        (balance * BUDGET_FRACTION)).purchased.take n)
      ≤ lotsCost (run_buy_rounds ok 1 snaps toBuy virtualInv
        (balance * BUDGET_FRACTION)).purchased := h₄
    _ = balance * BUDGET_FRACTION - (run_buy_rounds ok 1 snaps toBuy virtualInv
        (balance * BUDGET_FRACTION)).budget := h₂
    _ ≤ balance * BUDGET_FRACTION := by linarith

/-- A one-snapshot market sample used to instantiate the round-loop theorems. -/
def sampleSnap : List MarketEntry := [⟨1, "SELL", "Salt", 2, 3⟩]

/-- Witness for C3 at a concrete market: one SELL lot of Salt, wishlist of two
Salt, balance 100, every transaction succeeding. -/
theorem budget_cap_and_monotonicity_witness :
    lotsCost ((MarketAgent.run_buy_rounds (fun _ _ => true) 1 [sampleSnap]
        [("Salt", 2)] [] (100 * MarketAgent.BUDGET_FRACTION)).purchased.take 1)
      ≤ 100 * MarketAgent.BUDGET_FRACTION :=
  (budget_cap_and_monotonicity (fun _ _ => true) [sampleSnap] [("Salt", 2)] []
    100 (by norm_num)
    (by
      intro m hm e he
      simp only [sampleSnap, List.mem_singleton] at hm
      subst hm
      simp only [List.mem_singleton] at he
      subst he
      norm_num) 1).2

open MarketAgent in
/-- C7: for every deficit map and every sequence of order-book snapshots
(including ones that never satisfy the full deficit), the multi-round buy loop
terminates within the configured round cap `MAX_BUY_ROUNDS = 5`, and also
stops early when the wishlist is empty, when a round produces zero
acceptances (in particular once the deficit is fully covered, the planner
plans nothing and the loop exits), or when the budget is exhausted
(drops to ≤ 1) after a round. -/
theorem round_termination :
    (∀ (ok : Nat → Nat → Bool) (snaps : List (List MarketEntry))
      (toBuy virtualInv : List (String × Nat)) (budget : ℚ),
      (run_buy_rounds ok 1 snaps toBuy virtualInv budget).rounds ≤ MAX_BUY_ROUNDS)
    ∧ (∀ (ok : Nat → Nat → Bool) (roundNum : Nat) (snaps : List (List MarketEntry))
      (virtualInv : List (String × Nat)) (budget : ℚ),
      (run_buy_rounds ok roundNum snaps [] virtualInv budget).rounds = 0
      ∧ (run_buy_rounds ok roundNum snaps [] virtualInv budget).purchased = [])
    ∧ (∀ (ok : Nat → Nat → Bool) (roundNum : Nat) (market : List MarketEntry)
      (rest : List (List MarketEntry)) (toBuy virtualInv : List (String × Nat))
      (budget : ℚ), roundNum ≤ MAX_BUY_ROUNDS → toBuy ≠ [] →
      ((find_best_entries toBuy market budget).1 = [] →
        (run_buy_rounds ok roundNum (market :: rest) toBuy virtualInv budget).rounds = 1
        ∧ (run_buy_rounds ok roundNum (market :: rest) toBuy virtualInv budget).purchased = [])
      ∧ (((processBuyList (ok roundNum) (find_best_entries toBuy market budget).1
            toBuy virtualInv budget).bought = []
          ∨ (processBuyList (ok roundNum) (find_best_entries toBuy market budget).1
            toBuy virtualInv budget).budget ≤ 1) →
        (run_buy_rounds ok roundNum (market :: rest) toBuy virtualInv budget).rounds = 1)) := by
  refine ⟨?_, ?_, ?_⟩
  · intro ok snaps toBuy virtualInv budget
    have := run_buy_rounds_rounds_le snaps ok 1 toBuy virtualInv budget
    simpa using this
  · intro ok roundNum snaps virtualInv budget
    cases snaps with
    | nil => simp [run_buy_rounds]
    | cons market rest =>
      constructor <;>
        · simp only [run_buy_rounds]
          split_ifs <;> rfl
  · intro ok roundNum market rest toBuy virtualInv budget h₁ h₂
    have h₁m : ¬ MAX_BUY_ROUNDS < roundNum := not_lt.mpr h₁
    constructor
    · intro h₃
      simp [run_buy_rounds, if_neg h₁m, if_neg h₂, if_pos h₃]
    · intro h₄
      by_cases h₃ : (find_best_entries toBuy market budget).1 = []
      · simp only [run_buy_rounds, if_neg h₁m, if_neg h₂, if_pos h₃]
      · rcases h₄ with h₄ | h₄
        · simp only [run_buy_rounds, if_neg h₁m, if_neg h₂, if_neg h₃, if_pos h₄]
        · by_cases h₅ : (processBuyList (ok roundNum) (find_best_entries toBuy market budget).1
              toBuy virtualInv budget).bought = []
          · simp only [run_buy_rounds, if_neg h₁m, if_neg h₂, if_neg h₃, if_pos h₅]
          · simp only [run_buy_rounds, if_neg h₁m, if_neg h₂, if_neg h₃, if_neg h₅, if_pos h₄]

/-- Witness for C7: a round in which every transaction fails buys nothing and
the loop stops after exactly that round. -/
theorem round_termination_witness :
    (MarketAgent.run_buy_rounds (fun _ _ => false) 1 [sampleSnap]
      [("Salt", 2)] [] 70).rounds = 1 :=
  (round_termination.2.2 (fun _ _ => false) 1 sampleSnap [] [("Salt", 2)] [] 70
    (by norm_num [MarketAgent.MAX_BUY_ROUNDS]) (by simp)).2
    (Or.inl (by
      have h : (MarketAgent.find_best_entries [("Salt", 2)] sampleSnap 70).1
          = [⟨1, "SELL", "Salt", 2, 3⟩] := by
        simp [MarketAgent.find_best_entries, MarketAgent.findBestGo,
          MarketAgent.buyFromEntries, MarketAgent.sellEntriesFor,
          List.insertionSort, List.orderedInsert, MarketAgent.MAX_PRICE_PER_UNIT,
          sampleSnap]
        norm_num
      rw [h]
      simp [MarketAgent.processBuyList, PyDict.dgetD]))

/-- The worked example of the spec: one target recipe needing Salt×5 and
Pepper×1. -/
def exampleRecipe : MarketAgent.Recipe := ⟨"Target", 10, [("Salt", 5), ("Pepper", 1)]⟩

/-- Inventory `{Salt: 2}` of the worked example. -/
def exampleInventory : List (String × Nat) := [("Salt", 2)]

/-- Order book `SELL Salt x3@2, SELL Salt x5@1, SELL Pepper x1@10` of the
worked example. -/
def exampleMarket : List MarketEntry :=
  [⟨1, "SELL", "Salt", 3, 2⟩, ⟨2, "SELL", "Salt", 5, 1⟩, ⟨3, "SELL", "Pepper", 1, 10⟩]

open MarketAgent in
/-- C5: with inventory `{Salt: 2}` and a target recipe needing
`{Salt: 5, Pepper: 1}` at one copy, the computed deficit is
`{Salt: 3, Pepper: 1}`; against the order book
`[SELL Salt x3@2, SELL Salt x5@1, SELL Pepper x1@10]` with budget 100 and the
price cap (80, which is at least 20), the matcher selects exactly the lots
Salt x5@1 and Pepper x1@10 for a total spend of 15, and executing those
purchases leaves an all-zero residual deficit. -/
theorem worked_example :
    compute_missing [exampleRecipe] exampleInventory 1 = [("Salt", 3), ("Pepper", 1)]
    ∧ find_best_entries [("Salt", 3), ("Pepper", 1)] exampleMarket 100
        = ([⟨2, "SELL", "Salt", 5, 1⟩, ⟨3, "SELL", "Pepper", 1, 10⟩], 15)
    ∧ (∀ p ∈ (processBuyList (fun _ => true)
        [⟨2, "SELL", "Salt", 5, 1⟩, ⟨3, "SELL", "Pepper", 1, 10⟩]
        [("Salt", 3), ("Pepper", 1)] [] 100).toBuy, p.2 = 0)
    ∧ (20 : ℚ) ≤ MAX_PRICE_PER_UNIT := by
  refine ⟨rfl, ?_, ?_, by norm_num [MAX_PRICE_PER_UNIT]⟩
  · simp [find_best_entries, findBestGo, buyFromEntries, sellEntriesFor,
      List.insertionSort, List.orderedInsert, MAX_PRICE_PER_UNIT, exampleMarket]
    norm_num
  · intro p hp
    simp only [processBuyList, PyDict.dgetD, PyDict.dset] at hp
    simp at hp
    rcases hp with hp | hp <;> simp [hp]

open MarketAgentLegacy in
/-- C4: the legacy buy-side matcher (`src/market_agent.py`) takes a 5-unit
Salt lot priced 2 in full for a deficit of a single Salt, but charges only
`price × min(quantity, deficit) = 2` against the budget instead of the full
listed lot cost 10; the refactored matcher (`hackapizza/market_agent.py`)
charges the full cost 10 for the same selection. -/
theorem atomic_lot_cost_divergence :
    MarketAgentLegacy.find_best_entries [("Salt", 1)] [⟨1, "SELL", "Salt", 5, 2⟩] 100
      = ([⟨1, "SELL", "Salt", 5, 2⟩], 2)
    ∧ lotsCost [⟨1, "SELL", "Salt", 5, 2⟩] = 10
    ∧ (2 : ℚ) ≠ 10
    ∧ (MarketAgent.find_best_entries [("Salt", 1)] [⟨1, "SELL", "Salt", 5, 2⟩] 70).2 = 10 := by
  refine ⟨?_, by norm_num [lotsCost], by norm_num, ?_⟩
  · simp [MarketAgentLegacy.find_best_entries, findBestGoLegacy, buyFromEntriesLegacy,
      MarketAgent.sellEntriesFor, List.insertionSort, List.orderedInsert,
      MarketAgent.MAX_PRICE_PER_UNIT, MarketAgent.BUDGET_FRACTION]
    norm_num
  · simp [MarketAgent.find_best_entries, MarketAgent.findBestGo, MarketAgent.buyFromEntries,
      MarketAgent.sellEntriesFor, List.insertionSort, List.orderedInsert,
      MarketAgent.MAX_PRICE_PER_UNIT]
    norm_num

/-! ## Strategy agent — `src/hackapizza/strategy_agent.py`

`build_ingredient_quantities` (lines 140-176) computes how much of each
ingredient to buy for `copies_target` copies of the focus recipe plus
`max(1, copies_target - 1)` copies of the optional backup recipe.  The
backup deficit is computed net of inventory **plus** the quantities already
planned for the focus recipe.  Python `max(0, a - b)` on integers is natural
subtraction here. -/

namespace StrategyAgent

/-- The focus-recipe loop: `to_buy = max(0, qty_per_copy*copies - inventory)`;
positive amounts are recorded in `quantities` and the ingredient is appended
to `focus_ings_ordered`. -/
def focusLoop (inventory : List (String × Nat)) (copies : Nat)
    (ings : List (String × Nat)) (q : List (String × Nat)) (ord : List String) :
    List (String × Nat) × List String :=
  match ings with
  | [] => (q, ord)
  | (ing, qtyPerCopy) :: rest =>
    let toBuy := qtyPerCopy * copies - dgetD inventory ing 0
    if 0 < toBuy then focusLoop inventory copies rest (dset q ing toBuy) (ord ++ [ing])
    else focusLoop inventory copies rest q ord

/-- The backup-recipe loop:
`to_buy = max(0, qty_per_copy*backup_copies - inventory - quantities.get(ing, 0))`;
positive amounts are added on top of what is already planned, and ingredients
not already listed for the focus recipe are appended to
`backup_ings_ordered`. -/
def backupLoop (inventory : List (String × Nat)) (bcopies : Nat)
    (focusOrd : List String) (ings : List (String × Nat)) (q : List (String × Nat))
    (bord : List String) : List (String × Nat) × List String :=
  match ings with
  | [] => (q, bord)
  | (ing, qtyPerCopy) :: rest =>
    let toBuy := qtyPerCopy * bcopies - (dgetD inventory ing 0 + dgetD q ing 0)
    if 0 < toBuy then
      backupLoop inventory bcopies focusOrd rest (dset q ing (dgetD q ing 0 + toBuy))
        (if ing ∈ focusOrd then bord else bord ++ [ing])
    else backupLoop inventory bcopies focusOrd rest q bord

/-- `build_ingredient_quantities(focus_recipe, backup_recipe, inventory,
copies_target)`: returns `(ingredient_quantities, target_ings,
primary_count)`. -/
def build_ingredient_quantities (focus : MarketAgent.Recipe)
    (backup : Option MarketAgent.Recipe) (inventory : List (String × Nat))
    (copies : Nat) : List (String × Nat) × List String × Nat :=
  let f := focusLoop inventory copies focus.ingredients [] []
  let primaryCount := f.2.length
  match backup with
  | none => (f.1, f.2, primaryCount)
  | some b =>
    let bcopies := max 1 (copies - 1)
    let r := backupLoop inventory bcopies f.2 b.ingredients f.1 []
    (r.1, f.2 ++ r.2, primaryCount)

theorem focusLoop_get_notmem (inventory : List (String × Nat)) (copies : Nat) :
    ∀ (ings q : List (String × Nat)) (ord : List String) (k : String),
    k ∉ ings.map Prod.fst →
    dgetD (focusLoop inventory copies ings q ord).1 k 0 = dgetD q k 0 := by
  intro ings
  induction ings with
  | nil => intro q ord k _; simp [focusLoop]
  | cons p rest ih =>
    intro q ord k hk
    obtain ⟨ing, qpc⟩ := p
    simp only [List.map_cons, List.mem_cons, not_or] at hk
    obtain ⟨hk₁, hk₂⟩ := hk
    simp only [focusLoop]
    split
    · rw [ih _ _ _ hk₂, dgetD_dset_other _ _ _ _ _ (fun hh => hk₁ hh.symm)]
    · exact ih _ _ _ hk₂

theorem focusLoop_get_mem (inventory : List (String × Nat)) (copies : Nat) :
    ∀ (ings q : List (String × Nat)) (ord : List String) (k : String),
    (ings.map Prod.fst).Nodup → k ∈ ings.map Prod.fst → dgetD q k 0 = 0 →
    dgetD (focusLoop inventory copies ings q ord).1 k 0
      = dgetD ings k 0 * copies - dgetD inventory k 0 := by
  intro ings
  induction ings with
  | nil => intro q ord k _ hk; simp at hk
  | cons p rest ih =>
    intro q ord k hn hk hq
    obtain ⟨ing, qpc⟩ := p
    simp only [List.map_cons, List.nodup_cons] at hn
    obtain ⟨hn₁, hn₂⟩ := hn
    rcases List.mem_cons.mp hk with hk | hk
    · subst hk
      have hd : dgetD ((k, qpc) :: rest) k 0 = qpc := by simp [dgetD]
      simp only [focusLoop]
      rw [hd]
      split
      · rw [focusLoop_get_notmem _ _ _ _ _ _ hn₁, dgetD_dset_self]
      · rename_i hno
        rw [focusLoop_get_notmem _ _ _ _ _ _ hn₁, hq]
        omega
    · have hne : ing ≠ k := fun hh => hn₁ (hh ▸ hk)
      simp only [focusLoop]
      have hd : dgetD ((ing, qpc) :: rest) k 0 = dgetD rest k 0 := by
        simp [dgetD, hne]
      rw [hd]
      split
      · exact ih _ _ _ hn₂ hk (by rw [dgetD_dset_other _ _ _ _ _ hne]; exact hq)
      · exact ih _ _ _ hn₂ hk hq

theorem dgetD_of_notmem {α : Type} (d : List (String × α)) (k : String) (dflt : α)
    (h : k ∉ d.map Prod.fst) : dgetD d k dflt = dflt := by
  induction d with
  | nil => rfl
  | cons p rest ih =>
    obtain ⟨k₂, v⟩ := p
    simp only [List.map_cons, List.mem_cons, not_or] at h
    simp only [dgetD, if_neg (fun hh : k₂ = k => h.1 hh.symm)]
    exact ih h.2

/-- Final value of the focus-phase plan for any ingredient:
`max(0, need − inventory)` where the need is `qty_per_copy × copies` (0 for
ingredients the focus recipe does not use). -/
theorem focusLoop_get (inventory : List (String × Nat)) (copies : Nat)
    (ings : List (String × Nat)) (hn : (ings.map Prod.fst).Nodup) (k : String) :
    dgetD (focusLoop inventory copies ings [] []).1 k 0
      = dgetD ings k 0 * copies - dgetD inventory k 0 := by
  by_cases hk : k ∈ ings.map Prod.fst
  · exact focusLoop_get_mem inventory copies ings [] [] k hn hk rfl
  · rw [focusLoop_get_notmem inventory copies ings [] [] k hk,
      dgetD_of_notmem _ _ _ hk]
    simp [dgetD]

theorem backupLoop_get_notmem (inventory : List (String × Nat)) (bcopies : Nat)
    (focusOrd : List String) :
    ∀ (ings q : List (String × Nat)) (bord : List String) (k : String),
    k ∉ ings.map Prod.fst →
    dgetD (backupLoop inventory bcopies focusOrd ings q bord).1 k 0 = dgetD q k 0 := by
  intro ings
  induction ings with
  | nil => intro q bord k _; simp [backupLoop]
  | cons p rest ih =>
    intro q bord k hk
    obtain ⟨ing, qpc⟩ := p
    simp only [List.map_cons, List.mem_cons, not_or] at hk
    obtain ⟨hk₁, hk₂⟩ := hk
    simp only [backupLoop]
    split
    · rw [ih _ _ _ hk₂, dgetD_dset_other _ _ _ _ _ (fun hh => hk₁ hh.symm)]
    · exact ih _ _ _ hk₂

theorem backupLoop_get_mem (inventory : List (String × Nat)) (bcopies : Nat)
    (focusOrd : List String) :
    ∀ (ings q : List (String × Nat)) (bord : List String) (k : String),
    (ings.map Prod.fst).Nodup → k ∈ ings.map Prod.fst →
    dgetD (backupLoop inventory bcopies focusOrd ings q bord).1 k 0
      = dgetD q k 0
        + (dgetD ings k 0 * bcopies - (dgetD inventory k 0 + dgetD q k 0)) := by
  intro ings
  induction ings with
  | nil => intro q bord k _ hk; simp at hk
  | cons p rest ih =>
    intro q bord k hn hk
    obtain ⟨ing, qpc⟩ := p
    simp only [List.map_cons, List.nodup_cons] at hn
    obtain ⟨hn₁, hn₂⟩ := hn
    rcases List.mem_cons.mp hk with hk | hk
    · subst hk
      have hd : dgetD ((k, qpc) :: rest) k 0 = qpc := by simp [dgetD]
      simp only [backupLoop]
      rw [hd]
      split
      · rw [backupLoop_get_notmem _ _ _ _ _ _ _ hn₁, dgetD_dset_self]
      · rename_i hno
        rw [backupLoop_get_notmem _ _ _ _ _ _ _ hn₁]
        omega
    · have hne : ing ≠ k := fun hh => hn₁ (hh ▸ hk)
      simp only [backupLoop]
      have hd : dgetD ((ing, qpc) :: rest) k 0 = dgetD rest k 0 := by
        simp [dgetD, hne]
      rw [hd]
      split
      · rw [ih _ _ _ hn₂ hk, dgetD_dset_other _ _ _ _ _ hne]
      · exact ih _ _ _ hn₂ hk

end StrategyAgent

open StrategyAgent in
/-- C9: for every inventory and every pair of target recipes (focus and
backup) sharing an ingredient, the total planned purchase quantity for that
ingredient never exceeds the combined needs of the two recipes minus the
current inventory (clipped at zero), because the backup deficit is computed
against inventory plus the quantities already planned for the focus recipe. -/
theorem no_double_counting (focus backup : MarketAgent.Recipe)
    (inventory : List (String × Nat)) (copies : Nat) (ing : String)
    (hf : (focus.ingredients.map Prod.fst).Nodup)
    (hb : (backup.ingredients.map Prod.fst).Nodup) :
    dgetD (build_ingredient_quantities focus (some backup) inventory copies).1 ing 0
      ≤ dgetD focus.ingredients ing 0 * copies
        + dgetD backup.ingredients ing 0 * max 1 (copies - 1)
        - dgetD inventory ing 0 := by
  have hfv := focusLoop_get inventory copies focus.ingredients hf ing
  simp only [build_ingredient_quantities]
  by_cases hm : ing ∈ backup.ingredients.map Prod.fst
  · rw [backupLoop_get_mem inventory (max 1 (copies - 1)) _ backup.ingredients _ [] ing hb hm,
      hfv]
    omega
  · rw [backupLoop_get_notmem inventory (max 1 (copies - 1)) _ backup.ingredients _ [] ing hm,
      hfv]
    have hz : dgetD backup.ingredients ing 0 = 0 := dgetD_of_notmem _ _ _ hm
    omega

/-- Witness for C9: focus needs Salt×2 per copy at 2 copies, backup needs
Salt×3 per copy at 1 copy, inventory has 1 Salt. -/
theorem no_double_counting_witness :
    dgetD (StrategyAgent.build_ingredient_quantities ⟨"F", 0, [("Salt", 2)]⟩
        (some ⟨"B", 0, [("Salt", 3)]⟩) [("Salt", 1)] 2).1 "Salt" 0
      ≤ dgetD [("Salt", 2)] "Salt" 0 * 2
        + dgetD [("Salt", 3)] "Salt" 0 * max 1 (2 - 1)
        - dgetD [("Salt", 1)] "Salt" 0 :=
  no_double_counting ⟨"F", 0, [("Salt", 2)]⟩ ⟨"B", 0, [("Salt", 3)]⟩ [("Salt", 1)] 2 "Salt"
    (by simp) (by simp)

/-! ## Phase orchestrator — `src/orchestrator.py` and
`src/hackapizza/orchestrator.py`

Both files share the same `_cancel_running` / `_run` pair: on a phase-change
event the previous handler task, if not done, receives `task.cancel()` — a
cancellation *request* delivered at the task's next suspension point — and the
new handler task is created immediately; the cancellation is never awaited.
The model is a cooperative scheduler: tasks carry a status, a
cancellation-requested flag and a remaining amount of work (suspension
chunks); a scheduler step advances one task, finishing it if cancellation was
requested (the `except asyncio.CancelledError` arm of `_wrap`) or when its
work runs out. -/

namespace Orchestrator

inductive TStatus where
  | running
  | done
deriving DecidableEq, Repr

structure HandlerTask where
  tid : Nat
  status : TStatus
  cancelRequested : Bool
  work : Nat
deriving DecidableEq, Repr

structure SchedState where
  tasks : List HandlerTask
  runningTask : Option Nat
  nextId : Nat
deriving DecidableEq, Repr

def initState : SchedState := ⟨[], none, 0⟩

def findTask (s : SchedState) (tid : Nat) : Option HandlerTask :=
  s.tasks.find? (fun t => t.tid == tid)

def markCancel (tasks : List HandlerTask) (tid : Nat) : List HandlerTask :=
  tasks.map (fun t => if t.tid = tid then { t with cancelRequested := true } else t)

/-- `_cancel_running()`: if the tracked task exists and is not done, call
`cancel()` on it (set its flag); in every case drop the `_running_task`
reference.  The task object itself stays alive in the event loop. -/
def cancel_running (s : SchedState) : SchedState :=
  match s.runningTask with
  | none => { s with runningTask := none }
  | some tid =>
    match findTask s tid with
    | none => { s with runningTask := none }
    | some t =>
      if t.status = TStatus.done then { s with runningTask := none }
      else { s with tasks := markCancel s.tasks tid, runningTask := none }

/-- `_run(handler())` on a phase-change event with a known phase:
`_cancel_running()` then `asyncio.create_task(_wrap())`, which registers a new
running task and stores it in `_running_task`. -/
def run_handler (s : SchedState) (work : Nat) : SchedState :=
  let s₂ := cancel_running s
  { tasks := s₂.tasks ++ [⟨s₂.nextId, TStatus.running, false, work⟩],
    runningTask := some s₂.nextId,
    nextId := s₂.nextId + 1 }

/-- One scheduler time slice for the task with id `tid`: a running task with
a pending cancellation request finishes (CancelledError raised and caught by
`_wrap`); otherwise it either completes (work exhausted) or advances one
suspension chunk and keeps running. -/
def step_one (tid : Nat) (t : HandlerTask) : HandlerTask :=
  if t.tid = tid ∧ t.status = TStatus.running then
    if t.cancelRequested then { t with status := TStatus.done }
    else if t.work = 0 then { t with status := TStatus.done }
    else { t with work := t.work - 1 }
  else t

def step_task (s : SchedState) (tid : Nat) : SchedState :=
  { s with tasks := s.tasks.map (step_one tid) }

/-- The orchestrator events relevant to handler lifetime: a phase-change
event that dispatches to a known handler, and a scheduler step that gives a
task a time slice. -/
inductive OrchEvent where
  | phase_change (work : Nat)
  | scheduler_step (tid : Nat)
deriving DecidableEq, Repr

def orch_step (s : SchedState) (e : OrchEvent) : SchedState :=
  match e with
  | OrchEvent.phase_change w => run_handler s w
  | OrchEvent.scheduler_step tid => step_task s tid

def orch_run (evs : List OrchEvent) : SchedState :=
  evs.foldl orch_step initState

/-- Number of handler tasks that are observably running (not yet done). -/
def runningCount (s : SchedState) : Nat :=
  (s.tasks.filter (fun t => t.status == TStatus.running)).length

end Orchestrator

namespace Orchestrator

/-- The single-flight bookkeeping invariant: task ids are bounded by the
fresh-id counter and duplicate-free, and every task that is observably
running without a pending cancellation request is the currently tracked
handler. -/
def Inv (s : SchedState) : Prop :=
  (∀ t ∈ s.tasks, t.tid < s.nextId)
  ∧ (s.tasks.map HandlerTask.tid).Nodup
  ∧ (∀ t ∈ s.tasks, t.status = TStatus.running → t.cancelRequested = false →
      s.runningTask = some t.tid)

theorem find?_of_mem_nodup (tasks : List HandlerTask) (tid : Nat) (t : HandlerTask)
    (hn : (tasks.map HandlerTask.tid).Nodup) (ht : t ∈ tasks) (htid : t.tid = tid) :
    tasks.find? (fun x => x.tid == tid) = some t := by
  induction tasks with
  | nil => simp at ht
  | cons u rest ih =>
    simp only [List.map_cons, List.nodup_cons] at hn
    obtain ⟨hn₁, hn₂⟩ := hn
    rcases List.mem_cons.mp ht with rfl | hmem
    · rw [List.find?_cons_of_pos _ (by simp [htid])]
    · have hu : u.tid ≠ tid := by
        intro hh
        exact hn₁ (hh ▸ htid ▸ List.mem_map_of_mem HandlerTask.tid hmem)
      rw [List.find?_cons_of_neg _ (by simp [hu])]
      exact ih hn₂ hmem

theorem mem_markCancel (tasks : List HandlerTask) (tid : Nat) (t : HandlerTask)
    (ht : t ∈ markCancel tasks tid) :
    ∃ t₁ ∈ tasks, t = if t₁.tid = tid then { t₁ with cancelRequested := true } else t₁ := by
  obtain ⟨t₁, h₁, h₂⟩ := List.mem_map.mp ht
  exact ⟨t₁, h₁, h₂.symm⟩

theorem markCancel_map_tid (tasks : List HandlerTask) (tid : Nat) :
    (markCancel tasks tid).map HandlerTask.tid = tasks.map HandlerTask.tid := by
  unfold markCancel
  rw [List.map_map]
  apply List.map_congr_left
  intro t _
  by_cases h : t.tid = tid <;> simp [h]

theorem step_one_tid (tid : Nat) (t : HandlerTask) : (step_one tid t).tid = t.tid := by
  unfold step_one
  split_ifs <;> rfl

theorem step_one_flag (tid : Nat) (t : HandlerTask) :
    (step_one tid t).cancelRequested = t.cancelRequested := by
  unfold step_one
  split_ifs <;> rfl

theorem step_one_running (tid : Nat) (t : HandlerTask)
    (h : (step_one tid t).status = TStatus.running) : t.status = TStatus.running := by
  unfold step_one at h
  split_ifs at h <;> simp_all

theorem inv_cancel_running (s : SchedState) (h : Inv s) :
    Inv (cancel_running s) ∧ (cancel_running s).runningTask = none
    ∧ (cancel_running s).nextId = s.nextId ∧ (cancel_running s).tasks.map HandlerTask.tid
      = s.tasks.map HandlerTask.tid := by
  obtain ⟨h₁, h₂, h₃⟩ := h
  rcases hr : s.runningTask with _ | tid
  · simp only [cancel_running, hr]
    refine ⟨⟨h₁, h₂, ?_⟩, by trivial, by trivial, by trivial⟩
    intro t ht hrun hflag
    exact absurd (hr ▸ h₃ t ht hrun hflag) (by simp)
  · rcases hf : findTask s tid with _ | u
    · simp only [cancel_running, hr, hf]
      refine ⟨⟨h₁, h₂, ?_⟩, by trivial, by trivial, by trivial⟩
      intro t ht hrun hflag
      have hrt := h₃ t ht hrun hflag
      rw [hr] at hrt
      have htid : t.tid = tid := by
        have := Option.some.inj hrt
        omega
      have hfind : findTask s tid = some t := find?_of_mem_nodup s.tasks tid t h₂ ht htid
      rw [hf] at hfind
      simp at hfind
    · by_cases hdone : u.status = TStatus.done
      · simp only [cancel_running, hr, hf, if_pos hdone]
        refine ⟨⟨h₁, h₂, ?_⟩, by trivial, by trivial, by trivial⟩
        intro t ht hrun hflag
        have hrt := h₃ t ht hrun hflag
        rw [hr] at hrt
        have htid : t.tid = tid := by
          have := Option.some.inj hrt
          omega
        have hfind : findTask s tid = some t := find?_of_mem_nodup s.tasks tid t h₂ ht htid
        rw [hf] at hfind
        have : u = t := Option.some.inj hfind
        rw [this, hrun] at hdone
        simp at hdone
      · simp only [cancel_running, hr, hf, if_neg hdone]
        refine ⟨⟨?_, ?_, ?_⟩, by trivial, by trivial, markCancel_map_tid s.tasks tid⟩
        · intro t ht
          obtain ⟨t₁, hmem, hdef⟩ := mem_markCancel s.tasks tid t ht
          have hb := h₁ t₁ hmem
          rw [hdef]
          split <;> simpa using hb
        · rw [markCancel_map_tid]
          exact h₂
        · intro t ht hrun hflag
          obtain ⟨t₁, hmem, hdef⟩ := mem_markCancel s.tasks tid t ht
          by_cases hc : t₁.tid = tid
          · rw [if_pos hc] at hdef
            rw [hdef] at hflag
            simp at hflag
          · rw [if_neg hc] at hdef
            rw [hdef] at hrun hflag
            have hrt := h₃ t₁ hmem hrun hflag
            rw [hr] at hrt
            have htt : t₁.tid = tid := by
              have := Option.some.inj hrt
              omega
            exact absurd htt hc

theorem inv_step (s : SchedState) (e : OrchEvent) (h : Inv s) : Inv (orch_step s e) := by
  match e with
  | OrchEvent.phase_change w =>
    obtain ⟨⟨g₁, g₂, g₃⟩, grun, gnext, _⟩ := inv_cancel_running s h
    simp only [orch_step, run_handler]
    refine ⟨?_, ?_, ?_⟩
    · intro t ht
      rcases List.mem_append.mp ht with ht | ht
      · exact Nat.lt_succ_of_lt (g₁ t ht)
      · have : t = ⟨(cancel_running s).nextId, TStatus.running, false, w⟩ := by
          simpa using ht
        rw [this]
        simp
    · rw [List.map_append]
      simp only [List.map_cons, List.map_nil]
      rw [List.nodup_append]
      refine ⟨g₂, List.nodup_singleton _, ?_⟩
      intro a ha
      simp only [List.mem_singleton]
      intro hb
      subst hb
      obtain ⟨t, hmem, htid⟩ := List.mem_map.mp ha
      exact absurd (htid ▸ g₁ t hmem) (by simp)
    · intro t ht hrun hflag
      rcases List.mem_append.mp ht with ht | ht
      · have := g₃ t ht hrun hflag
        rw [grun] at this
        simp at this
      · have : t = ⟨(cancel_running s).nextId, TStatus.running, false, w⟩ := by
          simpa using ht
        rw [this]
  | OrchEvent.scheduler_step tid =>
    obtain ⟨h₁, h₂, h₃⟩ := h
    simp only [orch_step, step_task]
    refine ⟨?_, ?_, ?_⟩
    · intro t ht
      obtain ⟨t₁, hmem, hdef⟩ := List.mem_map.mp ht
      have := h₁ t₁ hmem
      have htid : t.tid = t₁.tid := by rw [← hdef, step_one_tid]
      show t.tid < s.nextId
      omega
    · rw [List.map_map]
      have heq : (HandlerTask.tid ∘ step_one tid) = HandlerTask.tid := by
        funext t
        exact step_one_tid tid t
      rw [heq]
      exact h₂
    · intro t ht hrun hflag
      obtain ⟨t₁, hmem, hdef⟩ := List.mem_map.mp ht
      have hflag₁ : t₁.cancelRequested = false := by
        rw [← step_one_flag tid t₁, hdef]
        exact hflag
      have hrun₁ : t₁.status = TStatus.running := by
        apply step_one_running tid t₁
        rw [hdef]
        exact hrun
      have htid : t.tid = t₁.tid := by rw [← hdef, step_one_tid]
      rw [htid]
      exact h₃ t₁ hmem hrun₁ hflag₁

theorem inv_foldl (evs : List OrchEvent) :
    ∀ s : SchedState, Inv s → Inv (evs.foldl orch_step s) := by
  induction evs with
  | nil => intro s h; simpa using h
  | cons e rest ih =>
    intro s h
    rw [List.foldl_cons]
    exact ih _ (inv_step s e h)

theorem inv_orch_run (evs : List OrchEvent) : Inv (orch_run evs) := by
  rw [orch_run]
  apply inv_foldl
  refine ⟨?_, ?_, ?_⟩ <;> simp [initState]

end Orchestrator

/-- C1 counterexample: after two consecutive phase-change events with a slow
handler, the superseded handler task and the new handler task are both
observably running at the same instant — `_cancel_running` only requests
cancellation (`task.cancel()`), it never awaits it before `_run` starts the
next task. -/
theorem single_flight_counterexample :
    Orchestrator.runningCount (Orchestrator.orch_run
      [Orchestrator.OrchEvent.phase_change 3, Orchestrator.OrchEvent.phase_change 3]) = 2
    ∧ ¬ Orchestrator.runningCount (Orchestrator.orch_run
      [Orchestrator.OrchEvent.phase_change 3, Orchestrator.OrchEvent.phase_change 3]) ≤ 1 := by
  decide

open Orchestrator in
/-- C1 (amended): before a new phase-handler task starts, any handler task
still running from a previous phase has had its cancellation *requested*
(`task.cancel()` was called on it); the cancellation is not awaited, so the
superseded task may still be observably running (not yet done) after the new
one starts.  Formally: along any event sequence, every handler task that is
running without a pending cancellation request is the currently tracked one —
hence at most one *non-signalled* handler is ever running. -/
theorem single_flight_cancel_signalled (evs : List OrchEvent) (t : HandlerTask)
    (ht : t ∈ (orch_run evs).tasks) (hrun : t.status = TStatus.running)
    (hflag : t.cancelRequested = false) :
    (orch_run evs).runningTask = some t.tid :=
  (inv_orch_run evs).2.2 t ht hrun hflag

/-- Witness for the amended C1: in the two-phase-change trace the fresh task
(id 1) is running, unsignalled, and is exactly the tracked handler. -/
theorem single_flight_cancel_signalled_witness :
    (Orchestrator.orch_run [Orchestrator.OrchEvent.phase_change 3,
      Orchestrator.OrchEvent.phase_change 3]).runningTask = some 1 :=
  single_flight_cancel_signalled
    [Orchestrator.OrchEvent.phase_change 3, Orchestrator.OrchEvent.phase_change 3]
    ⟨1, Orchestrator.TStatus.running, false, 3⟩ (by decide) (by decide) (by decide)

/-! ## Turn/phase coordinator state — `src/hackapizza/orchestrator.py`

The module-level per-turn state (lines 50-55): `current_turn_id`,
`_running_task`, `_in_serving` and `_strategy_task` (the speculative plan
task started in `on_speaking`).  `on_game_reset` (lines 196-200) sets
`current_turn_id = 0` and calls `_cancel_running()`; the task object that was
tracked is returned alongside the new state to make the delivered
cancellation signal observable. -/

namespace HkOrchestrator

structure PTask where
  status : Orchestrator.TStatus
  cancelRequested : Bool
deriving DecidableEq, Repr

structure CoordState where
  current_turn_id : Int
  runningTask : Option PTask
  strategyTask : Option PTask
  in_serving : Bool
deriving DecidableEq, Repr

/-- `_cancel_running()` at coordinator level: signal the tracked task if it is
not done, and drop the `_running_task` reference; the (possibly signalled)
task object itself lives on. -/
def hk_cancel_running (s : CoordState) : CoordState × Option PTask :=
  match s.runningTask with
  | none => ({ s with runningTask := none }, none)
  | some t =>
    if t.status = Orchestrator.TStatus.done then ({ s with runningTask := none }, some t)
    else ({ s with runningTask := none }, some { t with cancelRequested := true })

/-- `on_game_reset(data)`: `current_turn_id = 0; _cancel_running()`.
Neither `_strategy_task` nor `_in_serving` is touched. -/
def on_game_reset (s : CoordState) : CoordState × Option PTask :=
  hk_cancel_running { s with current_turn_id := 0 }

end HkOrchestrator

/-- C6 counterexample: a game reset arriving while the speculative strategy
task is running leaves that task tracked and running — reset does not clear
the in-flight plan task (nor the `_in_serving` flag), contradicting
"unconditionally clears all per-turn state". -/
theorem reset_counterexample :
    (HkOrchestrator.on_game_reset
      ⟨7, none, some ⟨Orchestrator.TStatus.running, false⟩, true⟩).1.strategyTask
      = some ⟨Orchestrator.TStatus.running, false⟩
    ∧ (HkOrchestrator.on_game_reset
      ⟨7, none, some ⟨Orchestrator.TStatus.running, false⟩, true⟩).1.strategyTask ≠ none
    ∧ (HkOrchestrator.on_game_reset
      ⟨7, none, some ⟨Orchestrator.TStatus.running, false⟩, true⟩).1.in_serving = true := by
  decide

open HkOrchestrator in
/-- C6 (amended): on a game reset the coordinator zeroes the current turn id,
signals cancellation on a still-running phase handler and drops its
reference — but it leaves the speculative strategy task and the in-serving
flag exactly as they were. -/
theorem reset_postcondition (s : CoordState) :
    (on_game_reset s).1.current_turn_id = 0
    ∧ (on_game_reset s).1.runningTask = none
    ∧ (on_game_reset s).1.strategyTask = s.strategyTask
    ∧ (on_game_reset s).1.in_serving = s.in_serving
    ∧ (∀ t : PTask, s.runningTask = some t → t.status = Orchestrator.TStatus.running →
        (on_game_reset s).2 = some { t with cancelRequested := true }) := by
  obtain ⟨tid, rt, st, ins⟩ := s
  rcases rt with _ | t
  · refine ⟨rfl, rfl, rfl, rfl, ?_⟩
    intro u hsome
    simp [on_game_reset, hk_cancel_running] at hsome
  · by_cases hdone : t.status = Orchestrator.TStatus.done
    · simp only [on_game_reset, hk_cancel_running, if_pos hdone]
      refine ⟨by trivial, by trivial, by trivial, by trivial, ?_⟩
      intro u hsome hrun
      have : t = u := by simpa using hsome
      rw [this, hrun] at hdone
      simp at hdone
    · simp only [on_game_reset, hk_cancel_running, if_neg hdone]
      refine ⟨by trivial, by trivial, by trivial, by trivial, ?_⟩
      intro u hsome _
      have : t = u := by simpa using hsome
      rw [this]

/-- Witness for the amended C6 at a concrete state with a running handler and
a live strategy task. -/
theorem reset_postcondition_witness :
    (HkOrchestrator.on_game_reset ⟨7, some ⟨Orchestrator.TStatus.running, false⟩,
      some ⟨Orchestrator.TStatus.running, false⟩, true⟩).2
      = some ⟨Orchestrator.TStatus.running, true⟩ :=
  (reset_postcondition ⟨7, some ⟨Orchestrator.TStatus.running, false⟩,
      some ⟨Orchestrator.TStatus.running, false⟩, true⟩).2.2.2.2
    ⟨Orchestrator.TStatus.running, false⟩ (by decide) (by decide)

/-! ## Stream reader lifecycle — `listen_loop` (`src/orchestrator.py`,
lines 235-247) vs `listen_once_and_exit_on_drop`
(`src/hackapizza/orchestrator.py`, lines 313-325)

A streaming session ends in one of three ways: an `aiohttp.ClientError`
(I/O failure or a bad status raised by `raise_for_status`), some other
exception, or a clean end of the response stream.  `listen_loop` handles all
three with a log line followed by `await asyncio.sleep(5)` and another loop
iteration; `listen_once_and_exit_on_drop` returns on a clean close (the
process then exits) and lets exceptions propagate out of `main`. -/

namespace StreamReader

inductive ConnOutcome where
  | client_error
  | other_error
  | clean_close
deriving DecidableEq, Repr

inductive StreamFate where
  | reconnect_after (secs : Nat)
  | exit_clean
  | raise_out
deriving DecidableEq, Repr

/-- What `listen_loop` does after one connection attempt ends:
`except aiohttp.ClientError` → log, sleep 5, continue;
`except Exception` → log, sleep 5, continue;
`else` (clean close) → log, sleep 5, continue. -/
def listen_loop_fate : ConnOutcome → StreamFate
  | ConnOutcome.client_error => StreamFate.reconnect_after 5
  | ConnOutcome.other_error => StreamFate.reconnect_after 5
  | ConnOutcome.clean_close => StreamFate.reconnect_after 5

/-- What `listen_once_and_exit_on_drop` does: a clean close logs
"connection closed, exiting" and returns (the process exits); an exception
propagates out of `main` and terminates the process. -/
def listen_once_and_exit_on_drop_fate : ConnOutcome → StreamFate
  | ConnOutcome.client_error => StreamFate.raise_out
  | ConnOutcome.other_error => StreamFate.raise_out
  | ConnOutcome.clean_close => StreamFate.exit_clean

/-- Whether the `while True` loop of `listen_loop` is still running after a
sequence of connection drops: it survives a drop exactly when the fate is a
reconnect. -/
def listen_loop_alive (drops : List ConnOutcome) : Bool :=
  drops.all (fun o => match listen_loop_fate o with
    | StreamFate.reconnect_after _ => true
    | _ => false)

end StreamReader

/-- C2 counterexample: the hackapizza orchestrator's stream reader exits on a
clean server close instead of reconnecting after 5 seconds — and it
propagates connection errors out of `main` — so the claim fails for
`listen_once_and_exit_on_drop`. -/
theorem stream_reconnect_counterexample :
    StreamReader.listen_once_and_exit_on_drop_fate StreamReader.ConnOutcome.clean_close
      = StreamReader.StreamFate.exit_clean
    ∧ StreamReader.listen_once_and_exit_on_drop_fate StreamReader.ConnOutcome.clean_close
      ≠ StreamReader.StreamFate.reconnect_after 5
    ∧ StreamReader.listen_once_and_exit_on_drop_fate StreamReader.ConnOutcome.client_error
      ≠ StreamReader.StreamFate.reconnect_after 5 := by
  decide

open StreamReader in
/-- C2 (amended): the legacy orchestrator's `listen_loop` reconnects after a
fixed 5-second delay on every kind of connection loss (I/O error, other
error, clean close) and survives any number of drops (unbounded retries);
the hackapizza orchestrator's `listen_once_and_exit_on_drop` instead exits
cleanly on a server close and lets errors propagate, terminating on drop. -/
theorem stream_reconnect_policy :
    (∀ o : ConnOutcome, listen_loop_fate o = StreamFate.reconnect_after 5)
    ∧ (∀ drops : List ConnOutcome, listen_loop_alive drops = true)
    ∧ listen_once_and_exit_on_drop_fate ConnOutcome.clean_close = StreamFate.exit_clean
    ∧ listen_once_and_exit_on_drop_fate ConnOutcome.client_error = StreamFate.raise_out
    ∧ listen_once_and_exit_on_drop_fate ConnOutcome.other_error = StreamFate.raise_out := by
  refine ⟨?_, ?_, rfl, rfl, rfl⟩
  · intro o
    cases o <;> rfl
  · intro drops
    induction drops with
    | nil => rfl
    | cons o rest ih =>
      cases o <;> simpa [listen_loop_alive, listen_loop_fate] using ih

/-! ## Bid agent — `src/hackapizza/bid_agent.py`

The pure bid-construction pipeline of `run_bid_agent` (lines 255-287): choose
a builder by which strategy inputs are non-empty — `ingredient_quantities`
(scaled by `_budget_scale_quantities`, then `build_bids_from_quantities`),
else `simplest_recipes` (`build_bids_from_recipes`), else the legacy builder —
then, whenever the complete ingredient list file is non-empty, extend the
batch with `_add_opportunistic_bids`.  The `preferred_ingredients is None`
fallback (an API fetch) is modelled as an already-resolved input list.
Python `int()` on a float truncates toward zero (`rtrunc`); `//` is floor
division. -/

namespace BidAgent

/-- Python `int(x)`: truncation toward zero. -/
def rtrunc (q : ℚ) : Int := if 0 ≤ q then ⌊q⌋ else ⌈q⌉

/-- `MAX_BUDGET = 100_000.0`. -/
def MAX_BUDGET : ℚ := 100000

/-- `BUDGET_FRACTION = 0.20` in `bid_agent.py`. -/
def BUDGET_FRACTION : ℚ := 1 / 5

/-- `MAX_COPIES_TO_STOCK = 2`. -/
def MAX_COPIES_TO_STOCK : Int := 2

/-- `MAX_SCALE = 1`. -/
def MAX_SCALE : Int := 1

/-- `MAX_INGREDIENTS = 20`. -/
def MAX_INGREDIENTS : Nat := 20

/-- `DEFAULT_BID = 20`. -/
def DEFAULT_BID : Int := 20

/-- `OPPORTUNISTIC_BID = 2`. -/
def OPPORTUNISTIC_BID : Int := 2

/-- `OPPORTUNISTIC_QTY = 3`. -/
def OPPORTUNISTIC_QTY : Int := 3

structure Bid where
  ingredient : String
  quantity : Int
  bid : Int
deriving DecidableEq, Repr

/-- `max(1, int(hint * 1.05)) if hint else DEFAULT_BID`: note Python
truthiness — a hint of 0 falls back to the default bid. -/
def hint_bid (hints : List (String × Int)) (ing : String) : Int :=
  match dfind hints ing with
  | some h => if h ≠ 0 then max 1 (rtrunc ((h : ℚ) * (21 / 20))) else DEFAULT_BID
  | none => DEFAULT_BID

/-- `build_bids_from_quantities(ingredient_quantities, price_hints)`
(lines 138-155): one bid per positive planned quantity, priced from the hint
or the default.  No balance check in this path. -/
def build_bids_from_quantities (iq : List (String × Int))
    (hints : List (String × Int)) : List Bid :=
  iq.filterMap (fun p =>
    if p.2 ≤ 0 then none else some ⟨p.1, p.2, hint_bid hints p.1⟩)

/-- `_budget_scale_quantities(ingredient_quantities, copies_target, balance,
price_hints)` (lines 62-97).  With `MAX_SCALE = 1` the computed scale is
always clamped to 1, so the quantities are returned unchanged on every
path. -/
def budget_scale_quantities (iq : List (String × Int)) (copies_target : Int)
    (balance : ℚ) (hints : List (String × Int)) : List (String × Int) :=
  if copies_target ≤ 0 ∨ iq = [] then iq
  else
    let cost_per_copy : ℚ :=
      (iq.map (fun p => ((p.2 : ℚ) / (copies_target : ℚ)) * ((hint_bid hints p.1 : ℚ)))).sum
    if cost_per_copy ≤ 0 then iq
    else
      let demand_cap : Int := Int.fdiv MAX_COPIES_TO_STOCK copies_target
      let budget_cap : Int :=
        rtrunc (balance * BUDGET_FRACTION / (cost_per_copy * (copies_target : ℚ)))
      let scale := max 1 (min demand_cap (min budget_cap MAX_SCALE))
      if scale ≤ 1 then iq
      else iq.map (fun p => (p.1, p.2 * scale))

/-- `build_bids_legacy(ingredients, balance, primary_count, price_hints)`
(lines 100-135): empty input or non-positive balance yields no bids;
otherwise the capped budget fraction is split 70/30 between the first
`primary_count` ingredients and the rest (or evenly with no primaries), one
unit-quantity bid each. -/
def legacy_bid_for (hints : List (String × Int)) (ing : String)
    (budget_share : ℚ) : Int :=
  match dfind hints ing with
  | some h =>
    if h ≠ 0 then max 1 (rtrunc ((h : ℚ) * (21 / 20)))
    else max DEFAULT_BID (rtrunc budget_share)
  | none => max DEFAULT_BID (rtrunc budget_share)

def build_bids_legacy (ingredients : List String) (balance : ℚ)
    (primary_count : Int) (hints : List (String × Int)) : List Bid :=
  if ingredients = [] ∨ balance ≤ 0 then []
  else
    let budget := min MAX_BUDGET (balance * BUDGET_FRACTION)
    let chosen := ingredients.take MAX_INGREDIENTS
    let nPrimary : Int := min primary_count (chosen.length : Int)
    if 0 < nPrimary then
      let primary := chosen.take nPrimary.toNat
      let secondary := chosen.drop nPrimary.toNat
      let perPrimary := budget * (7 / 10) / (nPrimary : ℚ)
      let pbids := primary.map (fun ing => Bid.mk ing 1 (legacy_bid_for hints ing perPrimary))
      if secondary ≠ [] then
        let perSecondary := budget * (3 / 10) / (secondary.length : ℚ)
        pbids ++ secondary.map (fun ing => Bid.mk ing 1 (legacy_bid_for hints ing perSecondary))
      else pbids
    else
      let perIng := budget / (chosen.length : ℚ)
      chosen.map (fun ing => Bid.mk ing 1 (legacy_bid_for hints ing perIng))

/-- `build_bids_from_recipes(simplest_recipes, balance, price_hints)`
(lines 158-221): empty input or non-positive balance yields no bids;
otherwise the capped budget is split evenly across recipes, whole affordable
stocks are computed per recipe (at least 1), quantities for shared
ingredients are summed with the highest bid kept, and the result is sorted
descending by `quantity × bid` (stable). -/
def build_bids_from_recipes (recipes : List MarketAgent.Recipe) (balance : ℚ)
    (hints : List (String × Int)) : List Bid :=
  if recipes = [] ∨ balance ≤ 0 then []
  else
    let budget := min MAX_BUDGET (balance * BUDGET_FRACTION)
    let budgetPerRecipe := budget / (recipes.length : ℚ)
    let bidsMap := recipes.foldl (fun (m : List (String × Int × Int)) recipe =>
      if recipe.ingredients = [] then m
      else
        let costPerStock : ℚ :=
          (recipe.ingredients.map (fun p => ((hint_bid hints p.1 : ℚ)) * (p.2 : ℚ))).sum
        let stocks : Int := if 0 < costPerStock then ⌊budgetPerRecipe / costPerStock⌋ else 0
        let stocksToBuy := max 1 stocks
        recipe.ingredients.foldl (fun m₂ p =>
          let total : Int := (p.2 : Int) * stocksToBuy
          let b := hint_bid hints p.1
          match dfind m₂ p.1 with
          | some prev => dset m₂ p.1 (prev.1 + total, max prev.2 b)
          | none => dset m₂ p.1 (total, b)) m) []
    let bids := bidsMap.map (fun p => Bid.mk p.1 p.2.1 p.2.2)
    List.insertionSort (fun a c => c.quantity * c.bid ≤ a.quantity * a.bid) bids

/-- `_add_opportunistic_bids(main_bids, all_ingredients)` (lines 49-60):
append a quantity-3, price-2 bid for every listed game ingredient not already
covered by the main bids. -/
def add_opportunistic_bids (mainBids : List Bid) (allIngredients : List String) :
    List Bid :=
  mainBids ++ allIngredients.filterMap (fun ing =>
    if ing ∈ mainBids.map Bid.ingredient then none
    else some ⟨ing, OPPORTUNISTIC_QTY, OPPORTUNISTIC_BID⟩)

/-- The builder selection of `run_bid_agent` (lines 260-280). -/
def planMainBids (hints : List (String × Int)) (iq : List (String × Int))
    (recipes : List MarketAgent.Recipe) (copies : Int) (balance : ℚ)
    (preferred : List String) (primary : Int) : List Bid :=
  if iq ≠ [] then
    build_bids_from_quantities (budget_scale_quantities iq copies balance hints) hints
  else if recipes ≠ [] then build_bids_from_recipes recipes balance hints
  else build_bids_legacy preferred balance primary hints

/-- The full bid batch submitted by `run_bid_agent` (lines 260-287): the
chosen builder's bids, extended with opportunistic bids whenever the complete
ingredient list is non-empty. -/
def run_bid_agent_bids (hints : List (String × Int)) (iq : List (String × Int))
    (recipes : List MarketAgent.Recipe) (copies : Int) (balance : ℚ)
    (preferred : List String) (primary : Int) (allIngredients : List String) :
    List Bid :=
  let bids := planMainBids hints iq recipes copies balance preferred primary
  if allIngredients ≠ [] then add_opportunistic_bids bids allIngredients else bids

end BidAgent

/-- C8 counterexample: with balance 0 but a non-empty planned quantity map,
the primary bidding path still produces (and would submit) a bid — the
quantities-based builder never checks the balance, and `MAX_SCALE = 1` makes
the budget-based scaling a no-op. -/
theorem planner_zero_balance_counterexample :
    BidAgent.run_bid_agent_bids [] [("Salt", 2)] [] 3 0 [] 0 []
      = [⟨"Salt", 2, 20⟩]
    ∧ BidAgent.run_bid_agent_bids [] [("Salt", 2)] [] 3 0 [] 0 [] ≠ [] := by
  have h : BidAgent.run_bid_agent_bids [] [("Salt", 2)] [] 3 0 [] 0 []
      = [⟨"Salt", 2, 20⟩] := by
    simp only [BidAgent.run_bid_agent_bids, BidAgent.planMainBids,
      BidAgent.budget_scale_quantities, BidAgent.build_bids_from_quantities,
      BidAgent.hint_bid, BidAgent.rtrunc, BidAgent.BUDGET_FRACTION,
      BidAgent.MAX_COPIES_TO_STOCK, BidAgent.MAX_SCALE, BidAgent.DEFAULT_BID,
      PyDict.dfind]
    norm_num [Int.fdiv, List.filterMap_cons]
  exact ⟨h, by rw [h]; simp⟩

open BidAgent in
/-- C8 (amended): the legacy and recipe-based builders return an empty bid
list whenever their input is empty or the balance is ≤ 0, and the whole
pipeline produces no bids when every strategy input and the ingredient-list
file are empty; but the primary quantities-based path ignores the balance
(see the counterexample), so the empty-plan guarantee for `balance ≤ 0` holds
only for the fallback builders. -/
theorem planner_degenerate_cases :
    (∀ (ingredients : List String) (balance : ℚ) (primary : Int)
      (hints : List (String × Int)), ingredients = [] ∨ balance ≤ 0 →
      build_bids_legacy ingredients balance primary hints = [])
    ∧ (∀ (recipes : List MarketAgent.Recipe) (balance : ℚ)
      (hints : List (String × Int)), recipes = [] ∨ balance ≤ 0 →
      build_bids_from_recipes recipes balance hints = [])
    ∧ (∀ (hints : List (String × Int)) (copies : Int) (balance : ℚ) (primary : Int),
      run_bid_agent_bids hints [] [] copies balance [] primary [] = []) := by
  refine ⟨?_, ?_, ?_⟩
  · intro ingredients balance primary hints h
    simp only [build_bids_legacy, if_pos h]
  · intro recipes balance hints h
    simp only [build_bids_from_recipes, if_pos h]
  · intro hints copies balance primary
    simp [run_bid_agent_bids, planMainBids, build_bids_legacy]

/-- Witness for the amended C8: both fallback builders yield no bids at
balance 0 with empty inputs. -/
theorem planner_degenerate_cases_witness :
    BidAgent.build_bids_legacy [] 100 0 [] = []
    ∧ BidAgent.build_bids_from_recipes [] 100 [] = [] :=
  ⟨planner_degenerate_cases.1 [] 100 0 [] (Or.inl rfl),
   planner_degenerate_cases.2.1 [] 100 [] (Or.inl rfl)⟩

namespace BidAgent

theorem add_opportunistic_covers (main : List Bid) (ings : List String)
    (ing : String) (h : ing ∈ ings) :
    (∃ b ∈ add_opportunistic_bids main ings, b.ingredient = ing)
    ∧ (ing ∉ main.map Bid.ingredient →
      Bid.mk ing OPPORTUNISTIC_QTY OPPORTUNISTIC_BID ∈ add_opportunistic_bids main ings) := by
  constructor
  · by_cases hc : ing ∈ main.map Bid.ingredient
    · obtain ⟨b, hb, hbi⟩ := List.mem_map.mp hc
      exact ⟨b, List.mem_append_left _ hb, hbi⟩
    · refine ⟨⟨ing, OPPORTUNISTIC_QTY, OPPORTUNISTIC_BID⟩, ?_, rfl⟩
      apply List.mem_append_right
      apply List.mem_filterMap.mpr
      exact ⟨ing, h, by rw [if_neg hc]⟩
  · intro hc
    apply List.mem_append_right
    apply List.mem_filterMap.mpr
    exact ⟨ing, h, by rw [if_neg hc]⟩

end BidAgent

open BidAgent in
/-- C10: whenever the complete ingredient list is non-empty, the submitted
batch is unconditionally the plan bids extended by `_add_opportunistic_bids`
— regardless of balance, budget fraction, or whether the plan is empty — and
therefore contains a bid for every listed game ingredient, with every
uncovered ingredient receiving quantity `OPPORTUNISTIC_QTY = 3` at unit
price `OPPORTUNISTIC_BID = 2`. -/
theorem opportunistic_blanket_bids (hints iq : List (String × Int))
    (recipes : List MarketAgent.Recipe) (copies : Int) (balance : ℚ)
    (preferred : List String) (primary : Int) (allIngredients : List String)
    (hne : allIngredients ≠ []) (ing : String) (hing : ing ∈ allIngredients) :
    run_bid_agent_bids hints iq recipes copies balance preferred primary allIngredients
      = add_opportunistic_bids
        (planMainBids hints iq recipes copies balance preferred primary) allIngredients
    ∧ (∃ b ∈ run_bid_agent_bids hints iq recipes copies balance preferred primary
        allIngredients, b.ingredient = ing)
    ∧ (ing ∉ (planMainBids hints iq recipes copies balance preferred primary).map
        Bid.ingredient →
      Bid.mk ing OPPORTUNISTIC_QTY OPPORTUNISTIC_BID
        ∈ run_bid_agent_bids hints iq recipes copies balance preferred primary
          allIngredients) := by
  have heq : run_bid_agent_bids hints iq recipes copies balance preferred primary
      allIngredients
      = add_opportunistic_bids
        (planMainBids hints iq recipes copies balance preferred primary) allIngredients := by
    simp only [run_bid_agent_bids, if_pos hne]
  obtain ⟨hcov, hunc⟩ := add_opportunistic_covers
    (planMainBids hints iq recipes copies balance preferred primary) allIngredients ing hing
  exact ⟨heq, heq ▸ hcov, fun hc => heq ▸ hunc hc⟩

/-- Witness for C10: with an empty plan and the ingredient file listing only
Pepper, the submitted batch contains the opportunistic Pepper×3 at 2 bid. -/
theorem opportunistic_blanket_bids_witness :
    BidAgent.Bid.mk "Pepper" BidAgent.OPPORTUNISTIC_QTY BidAgent.OPPORTUNISTIC_BID
      ∈ BidAgent.run_bid_agent_bids [] [] [] 3 100 [] 0 ["Pepper"] :=
  (opportunistic_blanket_bids [] [] [] 3 100 [] 0 ["Pepper"] (by simp) "Pepper"
    (by simp)).2.2
    (by simp [BidAgent.planMainBids, BidAgent.build_bids_legacy])
